import Mathlib

/-!
Shallow embedding of the paper enrichment pipeline of `parse_papers.py`
(repository paper-topic-modeling).

The embedding models the pipeline at the level of its data flow:

* `Paper` mirrors the Python `Paper` class (`title`, `authors`, `abstract`);
  Python's `None`/`''` distinction for `abstract` is kept via `Option String`.
* Python is dynamically typed: `ast.literal_eval` on the `authors` CSV cell can
  yield a value that is not a list of strings.  `PyLit` covers the literal
  shapes the store exercises (a string literal or a flat list of strings).
* The arXiv HTTP call and the XML soup are external collaborators; a
  `Resolver` maps the escaped query title to the `<entry>` payload (title tag
  and summary tag contents), exactly the data `_parse_arxiv_response` consumes.
  XML/HTML parsing robustness is a declared non-goal of the spec.
* The CSV layer is modelled field-exactly: one `StoreRow` of three string
  cells per record; `csv` quoting is taken as the identity on cells.
  `StoreItem.ioError` stands for a file-level exception raised while reading
  (e.g. a decode error), which `load_parsed_papers` catches around the whole
  loop.  `literalEval` implements the fragment of `ast.literal_eval` that the
  store's `authors` cells exercise (string literals and flat lists of string
  literals, as produced by Python's `str()` on a list of `str`).
* `process_papers_with_abstracts` is modelled by its event trace
  (`process_papers_events`): the file is opened with mode `'w'` (truncation)
  before the worker pool starts, and each record's row is written after its
  lookup. `executor.map` yields results in submission order, so the write
  stream is in input order; the trace serializes each task just before its
  row write, which preserves the file-contents-after-every-write semantics.
-/

namespace PaperPipeline

/-- Result of `ast.literal_eval` on an `authors` cell, for the literal shapes
the store exercises: a Python string literal or a flat list of strings. -/
inductive PyLit where
  | pstr (s : String)
  | plist (l : List String)
deriving DecidableEq, Repr

/-- The `Paper` class: `title`, `authors`, `abstract`.  `abstract = none`
models Python `None`; `some ""` models the empty string. -/
structure Paper where
  title : String
  authors : PyLit
  abstract : Option String
deriving DecidableEq, Repr

/-- `Paper.__eq__`: equal iff `title == other.title and authors == other.authors`. -/
def paperEq (a b : Paper) : Bool :=
  decide (a.title = b.title) && decide (a.authors = b.authors)

/-- Python truthiness of `paper.abstract`: `not paper.abstract` holds for
`None` and for the empty string. -/
def falsyAbs (p : Paper) : Bool :=
  match p.abstract with
  | none => true
  | some s => decide (s = "")

/-- `Paper.get_escaped_title`: `re.sub(r'[^a-zA-Z0-9]', '+', title)`. -/
def get_escaped_title (s : String) : String :=
  String.mk (s.data.map (fun c => if c.isAlphanum then c else '+'))

/-! ### Whitespace normalization (`re.sub(r'\s+', ' ', text.strip())`) -/

/-- ASCII whitespace recognized by Python's `str.strip` / regex `\s`. -/
def isPySpace (c : Char) : Bool :=
  c == ' ' || c == '\t' || c == '\n' || c == '\r' || c == '\x0b' || c == '\x0c'

/-- Replace each maximal whitespace run by a single space
(`re.sub(r'\s+', ' ', -)`); the flag records being inside a run. -/
def collapseGo : Bool → List Char → List Char
  | _, [] => []
  | inRun, c :: cs =>
    if isPySpace c then
      if inRun then collapseGo true cs
      else ' ' :: collapseGo true cs
    else c :: collapseGo false cs

/-- Leading-whitespace strip. -/
def stripL (l : List Char) : List Char := l.dropWhile isPySpace

/-- Trailing-whitespace strip. -/
def stripR (l : List Char) : List Char := (l.reverse.dropWhile isPySpace).reverse

/-- `re.sub(r'\s+', ' ', s.strip())` as applied to both the title tag and the
summary tag text in `_parse_arxiv_response`. -/
def normalize (s : String) : String :=
  String.mk (collapseGo false (stripR (stripL s.data)))

/-! ### Abstract Resolver -/

/-- The `<entry>` tag payload of the arXiv response: optional title tag text
and optional summary tag text. -/
structure ArxivEntry where
  title : Option String
  summary : Option String
deriving DecidableEq, Repr

/-- External collaborator: one lookup per escaped query title; `none` models
both a request failure (empty response text) and a response with no entry. -/
abbrev Resolver := String → Option ArxivEntry

/-- Python truthiness of an optional string. -/
def falsyOpt : Option String → Bool
  | none => true
  | some s => decide (s = "")

/-- `_parse_arxiv_response`: extract `(title, abstract)` from the entry,
whitespace-normalizing each tag text; `(None, None)` when no entry. -/
def parse_arxiv_response : Option ArxivEntry → Option String × Option String
  | none => (none, none)
  | some e => (e.title.map normalize, e.summary.map normalize)

/-- `fetch_abstract_for_paper`: performs the single request (the returned
`String` is the query sent), parses the response and applies the matched-title
policy, producing the updated paper. -/
def fetch_abstract_for_paper (resolver : Resolver) (p : Paper) : Paper × String :=
  let q := get_escaped_title p.title
  let ta := parse_arxiv_response (resolver q)
  if falsyOpt ta.2 && falsyOpt ta.1 then ({ p with abstract := some "" }, q)
  else if ta.1 ≠ some p.title then ({ p with abstract := some "" }, q)
  else ({ p with abstract := ta.2 }, q)

/-- `process_single_paper`: fetch only when `not paper.abstract`; the list
records the lookups performed (none, or exactly one). -/
def process_single_paper (resolver : Resolver) (p : Paper) : Paper × List String :=
  if falsyAbs p then
    let r := fetch_abstract_for_paper resolver p
    (r.1, [r.2])
  else (p, [])

/-- The enrichment pass over a record sequence, together with the sequence of
lookups performed (in dispatch order). -/
def enrichPair (resolver : Resolver) : List Paper → List Paper × List String
  | [] => ([], [])
  | p :: ps =>
    let r := process_single_paper resolver p
    let rest := enrichPair resolver ps
    (r.1 :: rest.1, r.2 ++ rest.2)

/-- The enriched record sequence (`executor.map(process_single_paper, papers)`
consumed in order). -/
def enrich (resolver : Resolver) (papers : List Paper) : List Paper :=
  (enrichPair resolver papers).1

/-! ### Deduplicating merge (the candidate loop of `load_raw_papers`) -/

/-- The candidate loop: for each candidate in order, `if paper not in papers:
papers.append(paper); new_papers_count += 1`.  Python `in` compares the
candidate (needle on the left of `__eq__`) against each element. -/
def mergeInto : List Paper → Nat → List Paper → List Paper × Nat
  | papers, count, [] => (papers, count)
  | papers, count, c :: cs =>
    if papers.any (fun x => paperEq c x) then mergeInto papers count cs
    else mergeInto (papers ++ [c]) (count + 1) cs

/-- Merge existing records with collector candidates, returning the working
set and the number of genuinely new candidates appended. -/
def mergePapers (existing candidates : List Paper) : List Paper × Nat :=
  mergeInto existing 0 candidates

/-! ### Python `str()` of an authors value, and `ast.literal_eval` back -/

/-- Lowercase hex digit, as in Python string-repr `\xHH` escapes. -/
def hexDig (n : Nat) : Char :=
  if n < 10 then Char.ofNat (48 + n) else Char.ofNat (87 + n)

/-- Value of a lowercase hex digit. -/
def hexVal (c : Char) : Option Nat :=
  if '0' ≤ c ∧ c ≤ '9' then some (c.toNat - 48)
  else if 'a' ≤ c ∧ c ≤ 'f' then some (c.toNat - 87)
  else none

/-- Escaping of one character inside a Python string repr with quote `q`:
backslash and the quote are escaped, `\n`/`\r`/`\t` use their mnemonics, other
ASCII control characters use `\xHH`.  (Characters at and above `0x80` are kept
as-is; Python additionally escapes unprintable ones, which the store's data
never contains.) -/
def escChar (q : Char) (c : Char) : List Char :=
  if c = '\\' then ['\\', '\\']
  else if c = q then ['\\', q]
  else if c = '\n' then ['\\', 'n']
  else if c = '\r' then ['\\', 'r']
  else if c = '\t' then ['\\', 't']
  else if c.toNat < 32 ∨ c.toNat = 127 then
    ['\\', 'x', hexDig (c.toNat / 16), hexDig (c.toNat % 16)]
  else [c]

/-- Python repr quote selection: a single quote unless the string contains one
and no double quote. -/
def pickQuote (s : String) : Char :=
  if s.data.contains '\'' && !(s.data.contains '"') then '"' else '\''

/-- Python `repr` of a string. -/
def reprStr (s : String) : String :=
  let q := pickQuote s
  String.mk (q :: (s.data.flatMap (escChar q) ++ [q]))

/-- Inverse of the escape inside a string literal delimited by `q`: returns
the decoded content and the input remaining after the closing quote. -/
def unesc (q : Char) : List Char → Option (List Char × List Char)
  | [] => none
  | c :: rest =>
    if c = '\\' then
      match rest with
      | [] => none
      | d :: r =>
        if d = 'n' then (unesc q r).map (fun p => ('\n' :: p.1, p.2))
        else if d = 'r' then (unesc q r).map (fun p => ('\r' :: p.1, p.2))
        else if d = 't' then (unesc q r).map (fun p => ('\t' :: p.1, p.2))
        else if d = 'x' then
          match r with
          | h1 :: h2 :: r2 =>
            match hexVal h1, hexVal h2 with
            | some a, some b => (unesc q r2).map (fun p => (Char.ofNat (16 * a + b) :: p.1, p.2))
            | _, _ => none
          | _ => none
        else if d = q ∨ d = '\\' then (unesc q r).map (fun p => (d :: p.1, p.2))
        else none
    else if c = q then some ([], rest)
    else (unesc q rest).map (fun p => (c :: p.1, p.2))

/-- Parse one Python string literal (either quote). -/
def parseStrLit : List Char → Option (String × List Char)
  | [] => none
  | c :: rest =>
    if c = '\'' ∨ c = '"' then (unesc c rest).map (fun p => (String.mk p.1, p.2))
    else none

/-- Continuation of a list literal after its first element: either the closing
bracket or `, ` followed by the next string literal.  Fueled to keep the
recursion structural; the fuel is instantiated to an upper bound on the
element count. -/
def parseElems : Nat → List Char → Option (List String × List Char)
  | 0, _ => none
  | fuel + 1, cs =>
    match cs with
    | [] => none
    | c :: rest =>
      if c = ']' then some ([], rest)
      else if c = ',' then
        match rest with
        | ' ' :: rest2 =>
          match parseStrLit rest2 with
          | some sr => (parseElems fuel sr.2).map (fun lr => (sr.1 :: lr.1, lr.2))
          | none => none
        | _ => none
      else none

/-- Parse the literal shapes the store exercises: a flat list of string
literals (as written by `str()` on a list of strings) or a bare string
literal.  Anything else — e.g. the cell `not-a-list` — fails, which is the
`ValueError`/`SyntaxError` branch of `load_parsed_papers`. -/
def parseLit : List Char → Option (PyLit × List Char)
  | '[' :: rest =>
    match rest with
    | [] => none
    | d :: r =>
      if d = ']' then some (.plist [], r)
      else
        match parseStrLit (d :: r) with
        | some sr =>
          (parseElems sr.2.length sr.2).map (fun lr => (.plist (sr.1 :: lr.1), lr.2))
        | none => none
  | cs => (parseStrLit cs).map (fun p => (.pstr p.1, p.2))

/-- `ast.literal_eval` on an authors cell (the exercised fragment): the whole
cell must be one literal. -/
def literalEval (s : String) : Option PyLit :=
  match parseLit s.data with
  | some (v, []) => some v
  | _ => none

/-- The `, `-separated continuation of `str()` on a list of strings. -/
def encGo : List String → List Char
  | [] => [']']
  | t :: ts => ',' :: ' ' :: (reprStr t).data ++ encGo ts

/-- Characters of Python `str()` on a list of strings (`repr` of each element,
`, ` separators, square brackets). -/
def reprListChars : List String → List Char
  | [] => ['[', ']']
  | s :: ss => '[' :: ((reprStr s).data ++ encGo ss)

/-- Python `str()` of an authors value as written by `csv.DictWriter`. -/
def pyStr : PyLit → String
  | .pstr s => s
  | .plist l => String.mk (reprListChars l)

/-! ### Record Store -/

/-- One CSV data row: the three cells, as text. -/
structure StoreRow where
  title : String
  authors : String
  abstract : String
deriving DecidableEq, Repr

/-- An element of the persisted file as seen by the reading loop: a data row,
or a point at which a file-level exception is raised (e.g. a decode error). -/
inductive StoreItem where
  | row (r : StoreRow)
  | ioError
deriving DecidableEq, Repr

/-- The row loop of `load_parsed_papers`: decode each row, skipping rows whose
`authors` cell fails `ast.literal_eval`; `none` signals a file-level exception
reaching the outer handler. -/
def loadRows : List StoreItem → Option (List Paper)
  | [] => some []
  | .ioError :: _ => none
  | .row r :: rest =>
    match literalEval r.authors with
    | some v => (loadRows rest).map (fun ps => ⟨r.title, v, some r.abstract⟩ :: ps)
    | none => loadRows rest

/-- `load_parsed_papers`: absent file yields `[]`; a file-level exception
during the read yields `[]` (outer `except` clause); otherwise the decoded
rows in file order. -/
def load_parsed_papers : Option (List StoreItem) → List Paper
  | none => []
  | some items => (loadRows items).getD []

/-- The row written for one paper by `csv.DictWriter.writerow(vars(paper))`:
the authors value goes through `str()`, a `None` abstract is written as the
empty cell. -/
def rowOfPaper (p : Paper) : StoreRow :=
  { title := p.title, authors := pyStr p.authors, abstract := p.abstract.getD "" }

/-- Serialization of a record sequence to store rows. -/
def writeRows (papers : List Paper) : List StoreRow :=
  papers.map rowOfPaper

/-! ### Persistence event trace of `process_papers_with_abstracts` -/

/-- Observable events of `process_papers_with_abstracts`: the `open(output,
'w')` truncation, one lookup per unresolved record, one row write per
record. -/
inductive PEvent where
  | truncate
  | lookup (q : String)
  | writeRow (r : StoreRow)
deriving DecidableEq, Repr

/-- Events contributed by one record: its lookup (if scheduled) followed by
its row write. -/
def paperEvents (resolver : Resolver) (p : Paper) : List PEvent :=
  let r := process_single_paper resolver p
  (r.2.map PEvent.lookup) ++ [PEvent.writeRow (rowOfPaper r.1)]

/-- `process_papers_with_abstracts`: with no papers it returns before touching
the file; otherwise the file is opened for writing (truncation) before the
worker pool starts, and rows are written in input order as results arrive. -/
def process_papers_events (resolver : Resolver) (papers : List Paper) : List PEvent :=
  if papers.isEmpty then []
  else PEvent.truncate :: papers.flatMap (paperEvents resolver)

/-- State of the store file after a sequence of events, starting from the
previously persisted contents. -/
def storeAfterEvents (prev : Option (List StoreItem)) (evs : List PEvent) :
    Option (List StoreItem) :=
  evs.foldl
    (fun cur e =>
      match e with
      | .truncate => some []
      | .writeRow r =>
        match cur with
        | some items => some (items ++ [.row r])
        | none => some [.row r]
      | .lookup _ => cur)
    prev

/-- Whether an event is a lookup. -/
def isLookup : PEvent → Bool
  | .lookup _ => true
  | _ => false

/-! ### Candidate Collector output and Pipeline Driver -/

/-- A collector candidate: the `<strong>` title and the comma-split `<em>`
author names. -/
structure RawCand where
  title : String
  authors : List String
deriving DecidableEq, Repr

/-- `Paper(title, authors)` built for a candidate: abstract defaults to `None`. -/
def candPaper (c : RawCand) : Paper :=
  { title := c.title, authors := .plist c.authors, abstract := none }

/-- What `load_raw_papers` returns: with the raw file absent it executes
`return existing_papers` — a bare list, contradicting its annotated return
type `Tuple[List[Paper], bool]`; otherwise the pair
`(papers, new_papers_count > 0)`. -/
inductive RawResult where
  | bare (papers : List Paper)
  | paired (papers : List Paper) (hasNew : Bool)

/-- `load_raw_papers`. -/
def load_raw_papers (existing : List Paper) (raw : Option (List RawCand)) : RawResult :=
  match raw with
  | none => .bare existing
  | some cs =>
    let m := mergeInto existing 0 (cs.map candPaper)
    .paired m.1 (decide (0 < m.2))

/-- Exceptions the driver can raise. -/
inductive PyErr where
  | valueError
  | typeError
deriving DecidableEq, Repr

/-- File system as the pipeline sees it: the parsed-papers store and the raw
listing (already reduced to its candidates; `none` = file absent). -/
structure FS where
  store : Option (List StoreItem)
  raw : Option (List RawCand)

/-- Outcome of one `load_papers` run: the returned value (or exception), the
store file afterwards, and the lookups performed. -/
structure RunResult where
  ret : Except PyErr (Option (List Paper))
  store : Option (List StoreItem)
  calls : List String

/-- `fetch_papers`. -/
def fetch_papers (fs : FS) : RawResult :=
  load_raw_papers (load_parsed_papers fs.store) fs.raw

/-- `load_papers`, the pipeline driver.  `papers, has_new_papers = fetch_papers(...)`
unpacks the result: on the bare-list return of `load_raw_papers` this raises
`ValueError` unless the list has exactly two elements, in which case `papers`
is bound to a `Paper` object and the subsequent `len(papers)` raises
`TypeError`; both propagate through the outer `except ... raise`.  An empty
working set returns early (`return` with no value, i.e. `None`).  With new
papers, `process_papers_with_abstracts` rewrites the store and mutates the
list in place, which is then returned. -/
def load_papers (resolver : Resolver) (fs : FS) : RunResult :=
  match fetch_papers fs with
  | .bare l =>
    { ret := .error (if l.length = 2 then PyErr.typeError else PyErr.valueError),
      store := fs.store, calls := [] }
  | .paired papers hasNew =>
    if papers.isEmpty then { ret := .ok none, store := fs.store, calls := [] }
    else if hasNew then
      let e := enrichPair resolver papers
      { ret := .ok (some e.1),
        store := storeAfterEvents fs.store (process_papers_events resolver papers),
        calls := e.2 }
    else { ret := .ok (some papers), store := fs.store, calls := [] }

/-- A resolver that always fails (network error / no entry). -/
def noneResolver : Resolver := fun _ => none

/-! ### Basic lemmas about the enrichment pass -/

theorem fetch_abstract_snd (resolver : Resolver) (p : Paper) :
    (fetch_abstract_for_paper resolver p).2 = get_escaped_title p.title := by
  simp only [fetch_abstract_for_paper]
  split <;> [rfl; (split <;> rfl)]

theorem fetch_abstract_frame (resolver : Resolver) (p : Paper) :
    (fetch_abstract_for_paper resolver p).1.title = p.title ∧
      (fetch_abstract_for_paper resolver p).1.authors = p.authors := by
  simp only [fetch_abstract_for_paper]
  split <;> [exact ⟨rfl, rfl⟩; (split <;> exact ⟨rfl, rfl⟩)]

theorem process_single_frame (resolver : Resolver) (p : Paper) :
    (process_single_paper resolver p).1.title = p.title ∧
      (process_single_paper resolver p).1.authors = p.authors := by
  simp only [process_single_paper]
  split
  · exact fetch_abstract_frame resolver p
  · exact ⟨rfl, rfl⟩

theorem process_single_resolved (resolver : Resolver) (p : Paper)
    (h : falsyAbs p = false) : process_single_paper resolver p = (p, []) := by
  simp [process_single_paper, h]

theorem process_single_unresolved (resolver : Resolver) (p : Paper)
    (h : falsyAbs p = true) :
    process_single_paper resolver p =
      ((fetch_abstract_for_paper resolver p).1, [get_escaped_title p.title]) := by
  simp [process_single_paper, h, fetch_abstract_snd]

theorem enrich_eq_map (resolver : Resolver) (papers : List Paper) :
    enrich resolver papers = papers.map (fun p => (process_single_paper resolver p).1) := by
  induction papers with
  | nil => rfl
  | cons p ps ih =>
    simp only [enrich, enrichPair, List.map_cons] at ih ⊢
    exact congrArg _ ih

theorem enrich_calls_eq (resolver : Resolver) (papers : List Paper) :
    (enrichPair resolver papers).2 =
      (papers.filter (fun q => falsyAbs q)).map (fun q => get_escaped_title q.title) := by
  induction papers with
  | nil => rfl
  | cons p ps ih =>
    simp only [enrichPair, List.filter_cons]
    by_cases h : falsyAbs p = true
    · rw [process_single_unresolved resolver p h]
      simp [h, ih]
    · rw [process_single_resolved resolver p (Bool.eq_false_iff.mpr h)]
      simp [Bool.eq_false_iff.mpr h, ih]

/-! ### C4: enrichment is order- and frame-preserving -/

/-- C4.  Enrichment is order- and frame-preserving: for every resolver and
input sequence, `enrich` returns a sequence of the same length whose record at
each position carries the same title and the same author sequence as the input
record at that position; only the abstract fields may differ.  (`executor.map`
yields results in submission order regardless of completion order, so the
deterministic trace is faithful.) -/
theorem c4_enrich_order_preserving (resolver : Resolver) (papers : List Paper) :
    (enrich resolver papers).length = papers.length ∧
      (enrich resolver papers).map (fun p => (p.title, p.authors)) =
        papers.map (fun p => (p.title, p.authors)) := by
  rw [enrich_eq_map]
  constructor
  · exact List.length_map _ _
  · rw [List.map_map]
    refine List.map_congr_left (fun p _ => ?_)
    have h := process_single_frame resolver p
    simp [Function.comp, h.1, h.2]

/-! ### C7: selective enrichment -/

/-- C7.  Selective enrichment: a record whose abstract is non-empty on entry
passes through unchanged at its position and triggers no resolver call; the
lookups performed are exactly one per record with an empty/absent abstract, in
input order. -/
theorem c7_selective_enrichment (resolver : Resolver) (papers : List Paper)
    (i : Nat) (p : Paper) (h1 : papers[i]? = some p) (h2 : falsyAbs p = false) :
    (enrich resolver papers)[i]? = some p ∧
      (enrichPair resolver papers).2 =
        (papers.filter (fun q => falsyAbs q)).map (fun q => get_escaped_title q.title) := by
  refine ⟨?_, enrich_calls_eq resolver papers⟩
  rw [enrich_eq_map, List.getElem?_map, h1]
  simp [process_single_resolved resolver p h2]

/-- Witness for C7 at a concrete enriched record and call-free resolver. -/
theorem c7_selective_enrichment_witness :
    ([(⟨"A", .plist ["X"], some "done"⟩ : Paper)][0]? =
        some (⟨"A", .plist ["X"], some "done"⟩ : Paper)) ∧
      falsyAbs (⟨"A", .plist ["X"], some "done"⟩ : Paper) = false ∧
      ((enrich noneResolver [⟨"A", .plist ["X"], some "done"⟩])[0]? =
          some (⟨"A", .plist ["X"], some "done"⟩ : Paper) ∧
        (enrichPair noneResolver [⟨"A", .plist ["X"], some "done"⟩]).2 =
          (([⟨"A", .plist ["X"], some "done"⟩] : List Paper).filter
              (fun q => falsyAbs q)).map (fun q => get_escaped_title q.title)) :=
  ⟨rfl, rfl,
    c7_selective_enrichment noneResolver [⟨"A", .plist ["X"], some "done"⟩] 0
      ⟨"A", .plist ["X"], some "done"⟩ rfl rfl⟩

/-! ### C2: behavior when the candidate source is absent -/

/-- C2.  The claim says an absent raw-listing file is not an error and the
entry point returns the records loaded from the store.  On the code,
`load_raw_papers` returns the bare `existing_papers` list when the raw file is
absent (contradicting its annotated return type `Tuple[List[Paper], bool]`),
so the tuple unpacking in `load_papers` raises `ValueError`: with a store
holding one valid row, the run raises instead of returning that row. -/
theorem c2_raw_absent_raises :
    (load_papers noneResolver
        { store := some [.row ⟨"T", "['X']", "done"⟩], raw := none }).ret =
      .error PyErr.valueError := by
  rfl

/-! ### C10: a file-level read exception empties the load result -/

theorem loadRows_ioError {items : List StoreItem} (h : StoreItem.ioError ∈ items) :
    loadRows items = none := by
  induction items with
  | nil => cases h
  | cons it rest ih =>
    cases it with
    | ioError => rfl
    | row r =>
      have hm : StoreItem.ioError ∈ rest := by
        cases h with
        | tail _ hm => exact hm
      simp only [loadRows]
      cases hv : literalEval r.authors with
      | none => exact ih hm
      | some v => rw [ih hm]; rfl

/-- C10.  Any file-level exception while reading the store (modelled as an
`ioError` item reached by the reading loop, as opposed to a per-row authors
decoding failure, which only skips that row) makes `load_parsed_papers`
return the empty sequence, discarding even the rows already parsed. -/
theorem c10_file_error_discards (items : List StoreItem)
    (h : StoreItem.ioError ∈ items) : load_parsed_papers (some items) = [] := by
  simp only [load_parsed_papers]
  rw [loadRows_ioError h]
  rfl

/-- Witness for C10: a valid, decodable row followed by a read failure is
discarded. -/
theorem c10_file_error_discards_witness :
    StoreItem.ioError ∈ [StoreItem.row ⟨"T", "['X']", "A"⟩, StoreItem.ioError] ∧
      load_parsed_papers (some [StoreItem.row ⟨"T", "['X']", "A"⟩, StoreItem.ioError]) = [] :=
  ⟨by decide,
    c10_file_error_discards [StoreItem.row ⟨"T", "['X']", "A"⟩, StoreItem.ioError] (by decide)⟩

/-! ### Merge lemmas (Deduplicator) -/

/-- No two records of the list are equal under the `(title, authors)` rule. -/
abbrev PairwiseNE (l : List Paper) : Prop :=
  l.Pairwise (fun a b => paperEq a b = false)

theorem paperEq_symm (a b : Paper) : paperEq a b = paperEq b a := by
  simp only [paperEq]
  rw [decide_eq_decide.mpr (eq_comm (a := a.title)),
    decide_eq_decide.mpr (eq_comm (a := a.authors))]

theorem paperEq_refl (a : Paper) : paperEq a a = true := by
  simp [paperEq]

theorem mergeInto_spec (cs : List Paper) :
    ∀ (papers : List Paper) (n : Nat),
      ∃ s, mergeInto papers n cs = (papers ++ s, n + s.length) ∧
        s.Sublist cs ∧
        (∀ c ∈ cs, ∃ x ∈ papers ++ s, paperEq c x = true) ∧
        (PairwiseNE papers → PairwiseNE (papers ++ s)) := by
  induction cs with
  | nil =>
    intro papers n
    exact ⟨[], by simp [mergeInto], List.Sublist.refl _, by simp, fun h => by simpa using h⟩
  | cons c cs ih =>
    intro papers n
    by_cases hc : papers.any (fun x => paperEq c x) = true
    · obtain ⟨s, h1, h2, h4, h3⟩ := ih papers n
      refine ⟨s, by simpa [mergeInto, hc] using h1, h2.cons _, ?_, h3⟩
      intro d hd
      rcases List.mem_cons.mp hd with hd | hd
      · subst hd
        obtain ⟨x, hx, he⟩ := List.any_eq_true.mp hc
        exact ⟨x, List.mem_append_left _ hx, he⟩
      · exact h4 d hd
    · have hall : ∀ x ∈ papers, paperEq c x = false := by
        intro x hx
        have := List.any_eq_false.mp (Bool.eq_false_iff.mpr hc) x hx
        simpa using this
      obtain ⟨s, h1, h2, h4, h3⟩ := ih (papers ++ [c]) (n + 1)
      have hsplit : papers ++ c :: s = (papers ++ [c]) ++ s := by
        simp
      refine ⟨c :: s, ?_, h2.cons₂ c, ?_, ?_⟩
      · rw [mergeInto, if_neg hc, h1, hsplit]
        congr 1
        simp only [List.length_cons]
        omega
      · intro d hd
        rcases List.mem_cons.mp hd with hd | hd
        · subst hd
          exact ⟨d, by simp, paperEq_refl d⟩
        · obtain ⟨x, hx, he⟩ := h4 d hd
          exact ⟨x, by rw [hsplit]; exact hx, he⟩
      · intro h
        have hnew : PairwiseNE (papers ++ [c]) := by
          apply List.pairwise_append.mpr
          refine ⟨h, List.pairwise_singleton _ _, ?_⟩
          intro a ha b hb
          have hb' : b = c := by simpa using hb
          subst hb'
          rw [paperEq_symm]
          exact hall a ha
        rw [hsplit]
        exact h3 hnew

/-! ### C3: dedup correctness of merge -/

/-- C3 (amended).  Unconditionally — for every existing sequence `E`,
duplicate-containing or not — every element of `E` appears unchanged, first,
and in original relative order (the result is `E ++ s`), the appended records
`s` form a subsequence of the candidates (candidate order, each appended
once), `added_count` counts exactly those appends, and every candidate is
represented in the result by some equal record.  Provided `E` itself contains
no two records equal under the `(title, authors)` identity, the merged result
additionally contains no two equal records.  The original claim's universal
no-duplicates conclusion fails when `E` itself contains duplicates, which the
merge keeps (see the counterexample). -/
theorem c3_merge_dedup (E C : List Paper) :
    ∃ s, mergePapers E C = (E ++ s, s.length) ∧ s.Sublist C ∧
      (∀ c ∈ C, ∃ x ∈ E ++ s, paperEq c x = true) ∧
      (PairwiseNE E → PairwiseNE (E ++ s)) := by
  obtain ⟨s, h1, h2, h4, h3⟩ := mergeInto_spec C E 0
  exact ⟨s, by simpa using h1, h2, h4, h3⟩

/-- Witness for C3 at a concrete store and candidate list (one duplicate
candidate, one new). -/
theorem c3_merge_dedup_witness :
    ∃ s, mergePapers [(⟨"A", .plist ["X"], some "done"⟩ : Paper)]
          [⟨"A", .plist ["X"], none⟩, ⟨"B", .plist ["Y"], none⟩] =
        ([(⟨"A", .plist ["X"], some "done"⟩ : Paper)] ++ s, s.length) ∧
      s.Sublist [⟨"A", .plist ["X"], none⟩, ⟨"B", .plist ["Y"], none⟩] ∧
      (∀ c ∈ [(⟨"A", .plist ["X"], none⟩ : Paper), ⟨"B", .plist ["Y"], none⟩],
        ∃ x ∈ [(⟨"A", .plist ["X"], some "done"⟩ : Paper)] ++ s, paperEq c x = true) ∧
      (PairwiseNE [(⟨"A", .plist ["X"], some "done"⟩ : Paper)] →
        PairwiseNE ([(⟨"A", .plist ["X"], some "done"⟩ : Paper)] ++ s)) :=
  c3_merge_dedup [⟨"A", .plist ["X"], some "done"⟩]
    [⟨"A", .plist ["X"], none⟩, ⟨"B", .plist ["Y"], none⟩]

/-- Counterexample to C3 as stated: with an existing sequence that already
contains two equal records, the merged result still contains both, so "the
merged result contains no two records equal under the (title, authors)
identity" fails for this `E` and `C = []`. -/
theorem c3_counterexample :
    mergePapers [⟨"A", .plist ["X"], none⟩, ⟨"A", .plist ["X"], none⟩] [] =
      ([⟨"A", .plist ["X"], none⟩, ⟨"A", .plist ["X"], none⟩], 0) ∧
      paperEq ⟨"A", .plist ["X"], none⟩ ⟨"A", .plist ["X"], none⟩ = true :=
  ⟨rfl, by decide⟩

/-! ### Merge count lemmas for the no-op run -/

theorem mergeInto_count_le (cs : List Paper) :
    ∀ (papers : List Paper) (n : Nat), n ≤ (mergeInto papers n cs).2 := by
  induction cs with
  | nil => intro papers n; exact Nat.le_refl n
  | cons c cs ih =>
    intro papers n
    rw [mergeInto]
    split
    · exact ih papers n
    · exact Nat.le_trans (Nat.le_succ n) (ih (papers ++ [c]) (n + 1))

theorem mergeInto_count_eq (cs : List Paper) :
    ∀ (papers : List Paper) (n : Nat),
      (mergeInto papers n cs).2 = n → (mergeInto papers n cs).1 = papers := by
  induction cs with
  | nil => intro papers n _; rfl
  | cons c cs ih =>
    intro papers n h
    rw [mergeInto] at h ⊢
    split at h
    · rename_i hc
      rw [if_pos hc]
      exact ih papers n h
    · rename_i hc
      exfalso
      have := mergeInto_count_le cs (papers ++ [c]) (n + 1)
      omega

/-! ### C6: idempotent no-op run -/

/-- C6 (amended).  When merging yields zero new candidates, the pipeline
performs no enrichment, makes no resolver calls, and does not rewrite the
store; provided the working set is nonempty it is returned unchanged (it
equals the loaded store records) and a second run on the resulting state is
identical.  When the working set is empty, however, the entry point returns
`None` rather than the empty working set (see the counterexample). -/
theorem c6_noop_run (resolver : Resolver) (fs : FS) (cs : List RawCand)
    (h1 : fs.raw = some cs)
    (h2 : (mergeInto (load_parsed_papers fs.store) 0 (cs.map candPaper)).2 = 0)
    (h3 : load_parsed_papers fs.store ≠ []) :
    (load_papers resolver fs).ret = .ok (some (load_parsed_papers fs.store)) ∧
      (load_papers resolver fs).store = fs.store ∧
      (load_papers resolver fs).calls = [] ∧
      load_papers resolver { store := (load_papers resolver fs).store, raw := fs.raw } =
        load_papers resolver fs := by
  have hm : (mergeInto (load_parsed_papers fs.store) 0 (cs.map candPaper)).1 =
      load_parsed_papers fs.store :=
    mergeInto_count_eq (cs.map candPaper) (load_parsed_papers fs.store) 0 h2
  have hres : load_papers resolver fs =
      { ret := .ok (some (load_parsed_papers fs.store)), store := fs.store, calls := [] } := by
    simp only [load_papers, fetch_papers, load_raw_papers, h1, hm, h2]
    have hne : (load_parsed_papers fs.store).isEmpty = false := by
      cases hl : load_parsed_papers fs.store with
      | nil => exact absurd hl h3
      | cons a l => rfl
    simp [hne]
  refine ⟨by rw [hres], by rw [hres], by rw [hres], ?_⟩
  rw [hres]
  exact hres

/-- Witness for C6: a store with one fully resolved record and a collector
yielding only that same record. -/
theorem c6_noop_run_witness :
    (FS.mk (some [.row ⟨"A", "['X']", "done"⟩]) (some [⟨"A", ["X"]⟩])).raw =
        some [⟨"A", ["X"]⟩] ∧
      (mergeInto
          (load_parsed_papers
            (FS.mk (some [.row ⟨"A", "['X']", "done"⟩]) (some [⟨"A", ["X"]⟩])).store)
          0 (([⟨"A", ["X"]⟩] : List RawCand).map candPaper)).2 = 0 ∧
      load_parsed_papers
          (FS.mk (some [.row ⟨"A", "['X']", "done"⟩]) (some [⟨"A", ["X"]⟩])).store ≠ [] ∧
      ((load_papers noneResolver
            (FS.mk (some [.row ⟨"A", "['X']", "done"⟩]) (some [⟨"A", ["X"]⟩]))).ret =
          .ok (some (load_parsed_papers
            (FS.mk (some [.row ⟨"A", "['X']", "done"⟩]) (some [⟨"A", ["X"]⟩])).store)) ∧
        (load_papers noneResolver
            (FS.mk (some [.row ⟨"A", "['X']", "done"⟩]) (some [⟨"A", ["X"]⟩]))).store =
          (FS.mk (some [.row ⟨"A", "['X']", "done"⟩]) (some [⟨"A", ["X"]⟩])).store ∧
        (load_papers noneResolver
            (FS.mk (some [.row ⟨"A", "['X']", "done"⟩]) (some [⟨"A", ["X"]⟩]))).calls = [] ∧
        load_papers noneResolver
            { store := (load_papers noneResolver
                (FS.mk (some [.row ⟨"A", "['X']", "done"⟩]) (some [⟨"A", ["X"]⟩]))).store,
              raw := (FS.mk (some [.row ⟨"A", "['X']", "done"⟩]) (some [⟨"A", ["X"]⟩])).raw } =
          load_papers noneResolver
            (FS.mk (some [.row ⟨"A", "['X']", "done"⟩]) (some [⟨"A", ["X"]⟩]))) :=
  ⟨rfl, by decide, by decide,
    c6_noop_run noneResolver
      (FS.mk (some [.row ⟨"A", "['X']", "done"⟩]) (some [⟨"A", ["X"]⟩]))
      [⟨"A", ["X"]⟩] rfl (by decide) (by decide)⟩

/-- Counterexample to C6 as stated: with an empty store and a collector
yielding no candidates, merging yields zero new candidates and the working
set is empty, but the entry point returns `None` (`Except.ok none`), not the
unchanged (empty) working set. -/
theorem c6_counterexample :
    load_papers noneResolver { store := none, raw := some [] } =
      { ret := .ok none, store := none, calls := [] } ∧
      (Except.ok (none : Option (List Paper)) : Except PyErr (Option (List Paper))) ≠
        .ok (some []) :=
  ⟨rfl, by simp⟩

/-! ### Persistence-trace lemmas -/

theorem storeAfter_paperEvents (resolver : Resolver) (p : Paper) (cur : List StoreItem) :
    storeAfterEvents (some cur) (paperEvents resolver p) =
      some (cur ++ [.row (rowOfPaper (process_single_paper resolver p).1)]) := by
  by_cases h : falsyAbs p = true
  · rw [paperEvents, process_single_unresolved resolver p h]
    simp [storeAfterEvents]
  · rw [paperEvents, process_single_resolved resolver p (Bool.eq_false_iff.mpr h)]
    simp [storeAfterEvents]

theorem storeAfter_flatMap (resolver : Resolver) (ps : List Paper) :
    ∀ cur : List StoreItem,
      storeAfterEvents (some cur) (ps.flatMap (paperEvents resolver)) =
        some (cur ++ (writeRows (enrich resolver ps)).map .row) := by
  induction ps with
  | nil => intro cur; simp [storeAfterEvents, writeRows, enrich, enrichPair]
  | cons p ps ih =>
    intro cur
    rw [List.flatMap_cons]
    have happ : storeAfterEvents (some cur)
        (paperEvents resolver p ++ ps.flatMap (paperEvents resolver)) =
        storeAfterEvents (storeAfterEvents (some cur) (paperEvents resolver p))
          (ps.flatMap (paperEvents resolver)) := by
      simp [storeAfterEvents, List.foldl_append]
    rw [happ, storeAfter_paperEvents, ih]
    have hcons : writeRows (enrich resolver (p :: ps)) =
        rowOfPaper (process_single_paper resolver p).1 :: writeRows (enrich resolver ps) := by
      simp [enrich_eq_map, writeRows]
    rw [hcons]
    simp [List.append_assoc]

/-! ### C1: persistence is incremental, not atomic-deferred -/

/-- C1 (amended).  Persistence is incremental, not deferred: with a nonempty
working set the very first event of `process_papers_with_abstracts` truncates
the store file (destroying the previously persisted contents before any
lookup completes), rows are then written one by one as lookups complete, and
only the final state of the file holds exactly the rows of the enriched
sequence.  A run killed mid-way therefore leaves a partially rewritten file,
not the previous store contents. -/
theorem c1_incremental_persistence (resolver : Resolver) (papers : List Paper)
    (prev : Option (List StoreItem)) (h : papers ≠ []) :
    (process_papers_events resolver papers).head? = some PEvent.truncate ∧
      storeAfterEvents prev (process_papers_events resolver papers) =
        some ((writeRows (enrich resolver papers)).map .row) := by
  have hne : papers.isEmpty = false := by
    cases papers with
    | nil => exact absurd rfl h
    | cons a l => rfl
  constructor
  · simp [process_papers_events, hne]
  · rw [process_papers_events, hne]
    simp only [Bool.false_eq_true, if_false]
    have hstep : storeAfterEvents prev
        (PEvent.truncate :: papers.flatMap (paperEvents resolver)) =
        storeAfterEvents (some []) (papers.flatMap (paperEvents resolver)) := by
      simp [storeAfterEvents]
    rw [hstep, storeAfter_flatMap]
    simp

/-- Witness for C1 at a one-record working set. -/
theorem c1_incremental_persistence_witness :
    ([(⟨"A", .plist ["X"], none⟩ : Paper)] ≠ []) ∧
      ((process_papers_events noneResolver [⟨"A", .plist ["X"], none⟩]).head? =
          some PEvent.truncate ∧
        storeAfterEvents none (process_papers_events noneResolver [⟨"A", .plist ["X"], none⟩]) =
          some ((writeRows (enrich noneResolver [⟨"A", .plist ["X"], none⟩])).map .row)) :=
  ⟨by simp,
    c1_incremental_persistence noneResolver [⟨"A", .plist ["X"], none⟩] none (by simp)⟩

/-- Counterexample to C1 as stated: starting from a persisted store with one
row and a run of two unresolved records, already after the first event (the
truncating open) the file no longer holds the previous contents while zero of
the two scheduled lookups have completed — so the store is not "written
exactly once, only after every scheduled lookup has completed", and a run
killed at that point has lost the previous store contents. -/
theorem c1_counterexample :
    storeAfterEvents (some [.row ⟨"Old", "['O']", "o"⟩])
        ((process_papers_events noneResolver
            [⟨"A", .plist ["X"], none⟩, ⟨"B", .plist ["Y"], none⟩]).take 1) =
      some [] ∧
      (some ([] : List StoreItem) ≠ some [StoreItem.row ⟨"Old", "['O']", "o"⟩]) ∧
      ((process_papers_events noneResolver
          [⟨"A", .plist ["X"], none⟩, ⟨"B", .plist ["Y"], none⟩]).take 1).countP isLookup = 0 ∧
      (process_papers_events noneResolver
          [⟨"A", .plist ["X"], none⟩, ⟨"B", .plist ["Y"], none⟩]).countP isLookup = 2 :=
  ⟨rfl, by simp, rfl, rfl⟩

/-! ### C8: load fails soft -/

/-- C8 (amended).  `load()` fails soft: an absent file yields the empty
sequence; a row whose `authors` cell is not a valid Python literal (e.g.
`not-a-list`) is skipped with a warning while the remaining rows are still
decoded in file order.  However, a row is kept whenever `ast.literal_eval`
succeeds, even when the decoded literal is not a sequence of strings (the
code never checks the decoded shape; see the counterexample), so "cannot be
decoded as a sequence of strings" does not imply the row is skipped. -/
theorem c8_load_fails_soft (r1 r2 : StoreRow) (v2 : PyLit) (rest : List StoreItem)
    (hbad : literalEval r1.authors = none)
    (hgood : literalEval r2.authors = some v2) :
    load_parsed_papers none = [] ∧
      load_parsed_papers (some (.row r1 :: .row r2 :: rest)) =
        load_parsed_papers (some (.row r2 :: rest)) ∧
      loadRows (.row r2 :: rest) =
        (loadRows rest).map (fun ps => ⟨r2.title, v2, some r2.abstract⟩ :: ps) := by
  refine ⟨rfl, ?_, ?_⟩
  · simp only [load_parsed_papers, loadRows, hbad]
  · simp only [loadRows, hgood]

/-- Witness for C8: an undecodable-authors row (`not-a-list`) followed by a
valid row. -/
theorem c8_load_fails_soft_witness :
    literalEval (StoreRow.mk "T1" "not-a-list" "A1").authors = none ∧
      literalEval (StoreRow.mk "T2" "['X']" "A2").authors = some (.plist ["X"]) ∧
      (load_parsed_papers none = [] ∧
        load_parsed_papers
            (some [.row (StoreRow.mk "T1" "not-a-list" "A1"),
              .row (StoreRow.mk "T2" "['X']" "A2")]) =
          load_parsed_papers (some [.row (StoreRow.mk "T2" "['X']" "A2")]) ∧
        loadRows [StoreItem.row (StoreRow.mk "T2" "['X']" "A2")] =
          (loadRows []).map
            (fun ps => ⟨(StoreRow.mk "T2" "['X']" "A2").title, PyLit.plist ["X"],
              some (StoreRow.mk "T2" "['X']" "A2").abstract⟩ :: ps)) :=
  ⟨rfl, rfl,
    c8_load_fails_soft (StoreRow.mk "T1" "not-a-list" "A1")
      (StoreRow.mk "T2" "['X']" "A2") (.plist ["X"]) [] rfl rfl⟩

/-- Counterexample to C8 as stated: the `authors` cell `'ab'` decodes (via
`ast.literal_eval`) to the bare string `"ab"` — not a sequence of strings —
yet the row is kept, not skipped. -/
theorem c8_counterexample :
    load_parsed_papers (some [.row ⟨"T", "'ab'", "A"⟩]) =
      [⟨"T", PyLit.pstr "ab", some "A"⟩] ∧
      load_parsed_papers (some [.row ⟨"T", "'ab'", "A"⟩]) ≠ [] :=
  ⟨rfl, by decide⟩

/-! ### Idempotence of whitespace normalization -/

theorem collapseGo_idem (l : List Char) :
    collapseGo false (collapseGo false l) = collapseGo false l ∧
      collapseGo true (collapseGo true l) = collapseGo true l := by
  induction l with
  | nil => exact ⟨rfl, rfl⟩
  | cons c cs ih =>
    by_cases h : isPySpace c = true
    · constructor
      · have hs : isPySpace ' ' = true := rfl
        simp only [collapseGo, h, if_true, hs]
        simp only [Bool.false_eq_true, if_false, if_true]
        exact congrArg _ ih.2
      · simp only [collapseGo, h, if_true]
        exact ih.2
    · have h' : isPySpace c = false := Bool.eq_false_iff.mpr h
      constructor
      · simp only [collapseGo, h', Bool.false_eq_true, if_false]
        exact congrArg _ ih.1
      · simp only [collapseGo, h', Bool.false_eq_true, if_false]
        exact congrArg _ ih.1

theorem getLast?_some_ne_nil {α : Type} {l : List α} {d : α}
    (h : l.getLast? = some d) : l ≠ [] := by
  intro he
  subst he
  cases h

theorem getLast?_cons_of_ne_nil {α : Type} (a : α) {l : List α} (h : l ≠ []) :
    (a :: l).getLast? = l.getLast? := by
  cases l with
  | nil => exact absurd rfl h
  | cons b m => exact List.getLast?_cons_cons

theorem collapseGo_getLast (l : List Char) :
    ∀ (b : Bool) (d : Char), l.getLast? = some d → isPySpace d = false →
      (collapseGo b l).getLast? = some d := by
  induction l with
  | nil => intro b d h _; cases h
  | cons c cs ih =>
    intro b d h hd
    cases cs with
    | nil =>
      have hc : c = d := by simpa using h
      subst hc
      cases b <;> simp [collapseGo, hd]
    | cons c2 cs' =>
      have h' : (c2 :: cs').getLast? = some d := by
        rw [List.getLast?_cons_cons] at h
        exact h
      by_cases hc : isPySpace c = true
      · cases b with
        | true =>
          have hstep : collapseGo true (c :: c2 :: cs') = collapseGo true (c2 :: cs') := by
            simp only [collapseGo, hc, if_true]
          rw [hstep]
          exact ih true d h' hd
        | false =>
          have hstep : collapseGo false (c :: c2 :: cs') =
              ' ' :: collapseGo true (c2 :: cs') := by
            simp only [collapseGo, hc, if_true, Bool.false_eq_true, if_false]
          rw [hstep]
          have htail := ih true d h' hd
          rw [getLast?_cons_of_ne_nil _ (getLast?_some_ne_nil htail)]
          exact htail
      · have hc' : isPySpace c = false := Bool.eq_false_iff.mpr hc
        have hstep : collapseGo b (c :: c2 :: cs') = c :: collapseGo false (c2 :: cs') := by
          cases b <;> simp only [collapseGo, hc', Bool.false_eq_true, if_false]
        rw [hstep]
        have htail := ih false d h' hd
        rw [getLast?_cons_of_ne_nil _ (getLast?_some_ne_nil htail)]
        exact htail

theorem dropWhile_head_not (p : Char → Bool) (l : List Char) :
    ∀ c, (l.dropWhile p).head? = some c → p c = false := by
  induction l with
  | nil => intro c h; cases h
  | cons a l ih =>
    intro c h
    rw [List.dropWhile_cons] at h
    by_cases hp : p a = true
    · rw [if_pos hp] at h
      exact ih c h
    · rw [if_neg hp] at h
      have : a = c := by simpa using h
      subst this
      exact Bool.eq_false_iff.mpr hp

theorem dropWhile_getLast (p : Char → Bool) (l : List Char) :
    ∀ d, l.getLast? = some d → p d = false → (l.dropWhile p).getLast? = some d := by
  induction l with
  | nil => intro d h _; cases h
  | cons a l ih =>
    intro d h hd
    rw [List.dropWhile_cons]
    by_cases hp : p a = true
    · rw [if_pos hp]
      cases l with
      | nil =>
        have : a = d := by simpa using h
        subst this
        rw [hd] at hp
        cases hp
      | cons b m =>
        rw [List.getLast?_cons_cons] at h
        exact ih d h hd
    · rw [if_neg hp]
      exact h

theorem stripR_eq_of_getLast (l : List Char)
    (h : ∀ d, l.getLast? = some d → isPySpace d = false) : stripR l = l := by
  unfold stripR
  cases hr : l.reverse with
  | nil =>
    have hl : l = [] := by
      have := congrArg List.reverse hr
      simpa using this
    simp [hl]
  | cons a m =>
    have ha : l.getLast? = some a := by
      rw [← List.head?_reverse, hr]
      rfl
    have hna : isPySpace a = false := h a ha
    rw [List.dropWhile_cons, if_neg (by simp [hna])]
    rw [← hr, List.reverse_reverse]

theorem stripR_head (y : List Char) (c : Char) (h : (stripR y).head? = some c) :
    y.head? = some c := by
  obtain ⟨u, hu⟩ := List.dropWhile_suffix (l := y.reverse) isPySpace
  have hy : y = (stripR y) ++ u.reverse := by
    have := congrArg List.reverse hu
    simpa [stripR, List.reverse_append] using this.symm
  cases hs : stripR y with
  | nil => rw [hs] at h; cases h
  | cons a t =>
    rw [hs] at h
    have hac : a = c := by simpa using h
    subst hac
    rw [hy, hs]
    rfl

theorem sstrip_head (x : List Char) :
    ∀ c, (stripR (stripL x)).head? = some c → isPySpace c = false := by
  intro c h
  exact dropWhile_head_not isPySpace x c (stripR_head (stripL x) c h)

theorem sstrip_getLast (x : List Char) :
    ∀ d, (stripR (stripL x)).getLast? = some d → isPySpace d = false := by
  intro d h
  have : ((stripL x).reverse.dropWhile isPySpace).head? = some d := by
    rw [← List.getLast?_reverse]
    exact h
  exact dropWhile_head_not isPySpace (stripL x).reverse d this

theorem sstrip_collapse_fixed (x : List Char) :
    collapseGo false (stripR (stripL (collapseGo false (stripR (stripL x))))) =
      collapseGo false (stripR (stripL x)) := by
  set t := stripR (stripL x) with ht
  set m := collapseGo false t with hm
  have hstripL : stripL m = m := by
    cases htc : t with
    | nil => simp [hm, htc, collapseGo, stripL]
    | cons c cs =>
      have hc : isPySpace c = false := by
        apply sstrip_head x c
        rw [← ht, htc]
        rfl
      have hmc : m = c :: collapseGo false cs := by
        rw [hm, htc]
        simp [collapseGo, hc]
      rw [hmc, stripL, List.dropWhile_cons, if_neg (by simp [hc])]
  have hstripR : stripR m = m := by
    apply stripR_eq_of_getLast
    intro d hd
    cases htc : t with
    | nil =>
      rw [hm, htc] at hd
      cases hd
    | cons c cs =>
      have htl : t.getLast? = some ((c :: cs).getLast (by simp)) := by
        rw [htc]
        exact List.getLast?_eq_getLast _ _
      have hnd : isPySpace ((c :: cs).getLast (by simp)) = false := by
        apply sstrip_getLast x
        rw [← ht]
        exact htl
      have := collapseGo_getLast t false _ htl hnd
      rw [← hm] at this
      rw [this] at hd
      have : (c :: cs).getLast (by simp) = d := by simpa using hd
      rw [← this]
      exact hnd
  rw [hstripL, hstripR, hm]
  exact (collapseGo_idem t).1

/-- The normalization applied by `_parse_arxiv_response`
(`re.sub(r'\s+', ' ', text.strip())`) is idempotent. -/
theorem normalize_idem (s : String) : normalize (normalize s) = normalize s := by
  show String.mk (collapseGo false (stripR (stripL (String.mk
      (collapseGo false (stripR (stripL s.data)))).data))) = _
  exact congrArg String.mk (sstrip_collapse_fixed s.data)

/-! ### C5: title-mismatch rejection -/

/-- C5.  Title-mismatch rejection: whenever the resolver's entry carries a
matched title whose whitespace-normalized form differs from the
whitespace-normalized queried title, `fetch_abstract_for_paper` assigns the
empty-string abstract and discards the resolver's payload; moreover a run
performs exactly one lookup per unresolved record (no retries within the
run).  The code compares the normalized matched title against the raw queried
title; because normalization is idempotent, a mismatch after normalizing both
implies the code's comparison also fails. -/
theorem c5_title_mismatch (resolver : Resolver) (papers : List Paper) (p : Paper)
    (m : String) (a : Option String)
    (hres : resolver (get_escaped_title p.title) = some ⟨some m, a⟩)
    (hmm : normalize m ≠ normalize p.title) :
    (fetch_abstract_for_paper resolver p).1.abstract = some "" ∧
      (fetch_abstract_for_paper resolver p).2 = get_escaped_title p.title ∧
      (enrichPair resolver papers).2 =
        (papers.filter (fun q => falsyAbs q)).map (fun q => get_escaped_title q.title) := by
  refine ⟨?_, fetch_abstract_snd resolver p, enrich_calls_eq resolver papers⟩
  have hne : normalize m ≠ p.title := fun he => hmm (by rw [← he, normalize_idem])
  simp only [fetch_abstract_for_paper, hres, parse_arxiv_response, Option.map]
  split
  · rfl
  · rw [if_pos (fun hsome => hne (Option.some.inj hsome))]

/-- Witness for C5: a resolver answering query `A` with matched title `B`. -/
theorem c5_title_mismatch_witness :
    ((fun q => if q = "A" then some ⟨some "B", some "payload"⟩ else none : Resolver)
        (get_escaped_title (Paper.mk "A" (.plist []) none).title) =
        some ⟨some "B", some "payload"⟩) ∧
      normalize "B" ≠ normalize (Paper.mk "A" (.plist []) none).title ∧
      ((fetch_abstract_for_paper
            (fun q => if q = "A" then some ⟨some "B", some "payload"⟩ else none)
            (Paper.mk "A" (.plist []) none)).1.abstract = some "" ∧
        (fetch_abstract_for_paper
            (fun q => if q = "A" then some ⟨some "B", some "payload"⟩ else none)
            (Paper.mk "A" (.plist []) none)).2 =
          get_escaped_title (Paper.mk "A" (.plist []) none).title ∧
        (enrichPair
            (fun q => if q = "A" then some ⟨some "B", some "payload"⟩ else none)
            ([] : List Paper)).2 =
          (([] : List Paper).filter (fun q => falsyAbs q)).map
            (fun q => get_escaped_title q.title)) :=
  ⟨rfl, by decide,
    c5_title_mismatch
      (fun q => if q = "A" then some ⟨some "B", some "payload"⟩ else none)
      [] (Paper.mk "A" (.plist []) none) "B" (some "payload") rfl (by decide)⟩

/-! ### Round-trip of the authors encoding (`str()` then `ast.literal_eval`) -/

theorem hexVal_hexDig (n : Nat) (h : n < 16) : hexVal (hexDig n) = some n := by
  interval_cases n <;> decide

theorem unesc_hex (q h1 h2 : Char) (r2 : List Char) (a b : Nat)
    (ha : hexVal h1 = some a) (hb : hexVal h2 = some b) :
    unesc q ('\\' :: 'x' :: h1 :: h2 :: r2) =
      (unesc q r2).map (fun p => (Char.ofNat (16 * a + b) :: p.1, p.2)) := by
  rw [unesc.eq_def]
  simp [ha, hb]

theorem unesc_other (q c : Char) (tail : List Char) (h1 : ¬c = '\\') (h2 : ¬c = q) :
    unesc q (c :: tail) = (unesc q tail).map (fun p => (c :: p.1, p.2)) := by
  rw [unesc.eq_def]
  simp [h1, h2]

theorem unesc_close (q : Char) (tail : List Char) (h1 : ¬q = '\\') :
    unesc q (q :: tail) = some ([], tail) := by
  rw [unesc.eq_def]
  simp [h1]

theorem unesc_bs_n (q : Char) (tail : List Char) :
    unesc q ('\\' :: 'n' :: tail) = (unesc q tail).map (fun p => ('\n' :: p.1, p.2)) := by
  rw [unesc.eq_def]
  simp

theorem unesc_bs_r (q : Char) (tail : List Char) :
    unesc q ('\\' :: 'r' :: tail) = (unesc q tail).map (fun p => ('\r' :: p.1, p.2)) := by
  rw [unesc.eq_def]
  simp

theorem unesc_bs_t (q : Char) (tail : List Char) :
    unesc q ('\\' :: 't' :: tail) = (unesc q tail).map (fun p => ('\t' :: p.1, p.2)) := by
  rw [unesc.eq_def]
  simp

theorem unesc_bs_other (q d : Char) (tail : List Char) (hn : ¬d = 'n') (hr : ¬d = 'r')
    (ht : ¬d = 't') (hx : ¬d = 'x') (hok : d = q ∨ d = '\\') :
    unesc q ('\\' :: d :: tail) = (unesc q tail).map (fun p => (d :: p.1, p.2)) := by
  rw [unesc.eq_def]
  simp [hn, hr, ht, hx, hok]

theorem unescStep (q c : Char) (tail : List Char) (hq : q = '\'' ∨ q = '"') :
    unesc q (escChar q c ++ tail) =
      (unesc q tail).map (fun p => (c :: p.1, p.2)) := by
  by_cases h1 : c = '\\'
  · subst h1
    exact unesc_bs_other q '\\' tail (by decide) (by decide) (by decide) (by decide)
      (Or.inr rfl)
  · by_cases h2 : c = q
    · subst h2
      rcases hq with rfl | rfl <;>
        exact unesc_bs_other _ _ tail (by decide) (by decide) (by decide) (by decide)
          (Or.inl rfl)
    · by_cases h3 : c = '\n'
      · subst h3
        rcases hq with rfl | rfl <;> exact unesc_bs_n _ tail
      · by_cases h4 : c = '\r'
        · subst h4
          rcases hq with rfl | rfl <;> exact unesc_bs_r _ tail
        · by_cases h5 : c = '\t'
          · subst h5
            rcases hq with rfl | rfl <;> exact unesc_bs_t _ tail
          · by_cases h6 : c.toNat < 32 ∨ c.toNat = 127
            · have hhi : c.toNat / 16 < 16 := by omega
              have hlo : c.toNat % 16 < 16 := Nat.mod_lt _ (by omega)
              have hesc : escChar q c =
                  ['\\', 'x', hexDig (c.toNat / 16), hexDig (c.toNat % 16)] := by
                simp [escChar, h1, h2, h3, h4, h5, h6]
              rw [hesc]
              simp only [List.cons_append, List.nil_append]
              rw [unesc_hex q _ _ tail _ _ (hexVal_hexDig _ hhi) (hexVal_hexDig _ hlo)]
              have hchar : Char.ofNat (16 * (c.toNat / 16) + c.toNat % 16) = c := by
                rw [Nat.div_add_mod]
                exact Char.ofNat_toNat c
              rw [hchar]
            · have hesc : escChar q c = [c] := by
                simp [escChar, h1, h2, h3, h4, h5, h6]
              rw [hesc]
              simp only [List.cons_append, List.nil_append]
              exact unesc_other q c tail h1 h2

theorem unescEnc (q : Char) (hq : q = '\'' ∨ q = '"') (l : List Char) :
    ∀ tail, unesc q (l.flatMap (escChar q) ++ (q :: tail)) = some (l, tail) := by
  induction l with
  | nil =>
    intro tail
    rcases hq with rfl | rfl <;> exact unesc_close _ tail (by decide)
  | cons c l ih =>
    intro tail
    rw [List.flatMap_cons, List.append_assoc, unescStep q c _ hq, ih tail]
    rfl

theorem pickQuote_cases (s : String) : pickQuote s = '\'' ∨ pickQuote s = '"' := by
  unfold pickQuote
  split
  · exact Or.inr rfl
  · exact Or.inl rfl

theorem parseStrLit_repr (s : String) (tail : List Char) :
    parseStrLit ((reprStr s).data ++ tail) = some (s, tail) := by
  have hq := pickQuote_cases s
  have hdata : (reprStr s).data =
      pickQuote s :: (s.data.flatMap (escChar (pickQuote s)) ++ [pickQuote s]) := rfl
  rw [hdata]
  have hsplit : (s.data.flatMap (escChar (pickQuote s)) ++ [pickQuote s]) ++ tail =
      s.data.flatMap (escChar (pickQuote s)) ++ (pickQuote s :: tail) := by
    simp
  show parseStrLit (pickQuote s ::
      ((s.data.flatMap (escChar (pickQuote s)) ++ [pickQuote s]) ++ tail)) = _
  rw [hsplit, parseStrLit, if_pos hq, unescEnc (pickQuote s) hq s.data tail]
  rfl

theorem encGo_length (l : List String) : l.length < (encGo l).length := by
  induction l with
  | nil => simp [encGo]
  | cons t ts ih =>
    simp only [encGo, List.length_cons, List.length_append]
    omega

theorem parseElems_encGo (l : List String) :
    ∀ (fuel : Nat) (tail : List Char), l.length < fuel →
      parseElems fuel (encGo l ++ tail) = some (l, tail) := by
  induction l with
  | nil =>
    intro fuel tail h
    cases fuel with
    | zero => omega
    | succ f => simp [encGo, parseElems]
  | cons t ts ih =>
    intro fuel tail h
    cases fuel with
    | zero => simp at h
    | succ f =>
      have hts : ts.length < f := by
        simp only [List.length_cons] at h
        omega
      have harr : encGo (t :: ts) ++ tail =
          ',' :: ' ' :: ((reprStr t).data ++ (encGo ts ++ tail)) := by
        simp [encGo]
      rw [harr, parseElems]
      have hcomma : (',' : Char) ≠ ']' := by decide
      rw [if_neg hcomma, if_pos rfl]
      rw [parseStrLit_repr t (encGo ts ++ tail)]
      simp [ih f tail hts]

theorem parseLit_replist (l : List String) (tail : List Char) :
    parseLit (reprListChars l ++ tail) = some (.plist l, tail) := by
  cases l with
  | nil => simp [reprListChars, parseLit]
  | cons s ss =>
    have hq := pickQuote_cases s
    have hdata : (reprStr s).data =
        pickQuote s :: (s.data.flatMap (escChar (pickQuote s)) ++ [pickQuote s]) := rfl
    have harr : reprListChars (s :: ss) ++ tail =
        '[' :: (pickQuote s ::
          (s.data.flatMap (escChar (pickQuote s)) ++ [pickQuote s]) ++
            (encGo ss ++ tail)) := by
      simp [reprListChars, hdata]
    have hqne : pickQuote s ≠ ']' := by
      rcases hq with h | h <;> rw [h] <;> decide
    have hstr2 : parseStrLit (pickQuote s ::
        (s.data.flatMap (escChar (pickQuote s)) ++ pickQuote s :: (encGo ss ++ tail))) =
        some (s, encGo ss ++ tail) := by
      have := parseStrLit_repr s (encGo ss ++ tail)
      rw [hdata] at this
      simpa [List.append_assoc] using this
    have hfuel : ss.length < (encGo ss ++ tail).length := by
      have := encGo_length ss
      simp only [List.length_append]
      omega
    rw [harr, parseLit.eq_def]
    simp only [List.cons_append, List.append_assoc, List.singleton_append]
    simp [hqne]
    rw [hstr2]
    simp only [List.length_append] at hfuel
    simp [parseElems_encGo ss ((encGo ss).length + tail.length) tail hfuel]

theorem literalEval_pyStr_list (l : List String) :
    literalEval (String.mk (reprListChars l)) = some (.plist l) := by
  have h : parseLit (reprListChars l) = some (.plist l, []) := by
    have := parseLit_replist l []
    simpa using this
  simp [literalEval, h]

/-! ### C9: store round-trip -/

theorem loadRows_writeRows (papers : List Paper)
    (h : ∀ p ∈ papers, (∃ ll, p.authors = .plist ll) ∧ ∃ s, p.abstract = some s) :
    loadRows ((writeRows papers).map .row) = some papers := by
  induction papers with
  | nil => rfl
  | cons p ps ih =>
    obtain ⟨⟨ll, hll⟩, ⟨s, hs⟩⟩ := h p (List.mem_cons_self p ps)
    have hrest := ih (fun x hx => h x (List.mem_cons_of_mem p hx))
    have hrow : rowOfPaper p = ⟨p.title, String.mk (reprListChars ll), s⟩ := by
      simp [rowOfPaper, hll, hs, pyStr]
    rw [writeRows, List.map_cons, List.map_cons, ← writeRows, hrow, loadRows]
    simp only [literalEval_pyStr_list, hrest]
    have hp : (⟨p.title, PyLit.plist ll, some s⟩ : Paper) = p := by
      cases p
      simp_all
    rw [hp]
    rfl

/-- C9.  Store round-trip: for every sequence of records whose authors are
lists of strings and whose abstracts are strings, serializing the sequence to
store rows (the write of `process_papers_with_abstracts`: `str()` on the
authors list, one row per record) and loading it back with
`load_parsed_papers` (`ast.literal_eval` on the authors cell) yields the
identical sequence; in particular the authors encoding is decoded back to the
identical ordered list of strings. -/
theorem c9_store_round_trip (papers : List Paper)
    (h : ∀ p ∈ papers, (∃ ll, p.authors = .plist ll) ∧ ∃ s, p.abstract = some s) :
    load_parsed_papers (some ((writeRows papers).map .row)) = papers := by
  rw [load_parsed_papers, loadRows_writeRows papers h]
  rfl

/-- Witness for C9 at a concrete two-record store with multi-author records
and punctuation in the titles. -/
theorem c9_store_round_trip_witness :
    (∀ p ∈ [(⟨"A: title, with commas", .plist ["X Y", "Z'Q"], some "abs one"⟩ : Paper),
        ⟨"B", .plist [], some ""⟩],
      (∃ ll, p.authors = .plist ll) ∧ ∃ s, p.abstract = some s) ∧
      load_parsed_papers (some ((writeRows
          [(⟨"A: title, with commas", .plist ["X Y", "Z'Q"], some "abs one"⟩ : Paper),
            ⟨"B", .plist [], some ""⟩]).map .row)) =
        [(⟨"A: title, with commas", .plist ["X Y", "Z'Q"], some "abs one"⟩ : Paper),
          ⟨"B", .plist [], some ""⟩] :=
  have hh : ∀ p ∈ [(⟨"A: title, with commas", .plist ["X Y", "Z'Q"], some "abs one"⟩ : Paper),
      ⟨"B", .plist [], some ""⟩],
      (∃ ll, p.authors = .plist ll) ∧ ∃ s, p.abstract = some s := by
    intro p hp
    rcases List.mem_cons.mp hp with rfl | hp2
    · exact ⟨⟨["X Y", "Z'Q"], rfl⟩, ⟨"abs one", rfl⟩⟩
    · rcases List.mem_cons.mp hp2 with rfl | hp3
      · exact ⟨⟨[], rfl⟩, ⟨"", rfl⟩⟩
      · cases hp3
  ⟨hh, c9_store_round_trip _ hh⟩

end PaperPipeline
